import Mathlib

/-!
Shallow embedding of `src/main.rs` of FauxFaux/mitmproxy-game: a decoder for a
netstring-like, length-prefixed and sigil-tagged wire format.  Streams are
modelled as lists of bytes (`List Nat`, each element a byte value); the Rust
`Peekable<Bytes<R>>` iterator over an in-memory buffer never yields I/O errors,
so the pure list model is exact for the buffer-backed inputs the claims are
about.  Fallible Rust code returning `Result` is modelled with `Except`.
-/

namespace Mitm

/-- The decoded value model, mirroring `serde_json::Value` as used by the
program: strings, numbers, booleans, arrays and string-keyed objects.  A
number is abstracted as its literal text (validated against the JSON number
grammar); no claim depends on numeric magnitude.  An object is a list of
key-value pairs with unique keys, built by `Map::insert` semantics. -/
inductive Value where
  | str : String → Value
  | num : String → Value
  | bool : Bool → Value
  | arr : List Value → Value
  | obj : List (String × Value) → Value
deriving Repr

/-- Errors raised by the decoder, one constructor per `bail!` / `ensure!` /
`format_err!` site in `main.rs`, plus `ctx` for `with_context` wrapping and
`fuelExhausted` for the recursion bound of the embedding (proved unreachable
in `deconstructF_no_fuel`). -/
inductive Err where
  | fuelExhausted
  | lengthParse (near : List Nat)
  | eofColon
  | missingColon
  | shortRead (wanted got : Nat)
  | noTrailingSigil (len : Nat)
  | badString (window : List Nat)
  | invalidUtf8 (validUpTo : Nat)
  | badNumber (s : String)
  | invalidBoolean (s : String)
  | nonStringKey (v : Value)
  | unimplemented (sigil : Nat) (data : List Nat)
  | ctx (msg : String) (e : Err)
deriving Repr

/-- One framed unit of the wire format, as in the Rust `struct Block`. -/
structure Block where
  sigil : Nat
  data : List Nat
deriving Repr

/-- The Rust lexer collects length digits with
`char::from(c).is_numeric()`.  `char::from : u8 -> char` is the Latin-1
embedding, and `is_numeric` holds for the ASCII digits and for the six
Latin-1 numeric characters (superscripts 1, 2, 3 and the vulgar fractions),
i.e. bytes 178, 179, 185, 188, 189, 190. -/
def isNumByte (b : Nat) : Bool :=
  (48 ≤ b && b ≤ 57) || b == 178 || b == 179 || b == 185 || b == 188 || b == 189 || b == 190

/-- ASCII decimal digit test, as accepted by Rust's `str::parse::<usize>`. -/
def isAsciiDigit (b : Nat) : Bool :=
  48 ≤ b && b ≤ 57

/-- Value of a string of ASCII digit bytes, most significant first. -/
def digitsVal (ds : List Nat) : Nat :=
  ds.foldl (fun a b => a * 10 + (b - 48)) 0

/-- Model of `str::parse::<usize>` applied to the collected digit characters:
fails on the empty string, on any non-ASCII-digit character (the Latin-1
numerics collected by `is_numeric` are not valid for `parse`), and on
overflow past `usize::MAX` (64-bit). -/
def parseUsize (ds : List Nat) : Option Nat :=
  if ds.isEmpty then none
  else if ds.all isAsciiDigit then
    if digitsVal ds < 18446744073709551616 then some (digitsVal ds) else none
  else none

/-- Step of `take_block` after the length and the colon are consumed:
take exactly `len` payload bytes (erroring with the short-read message
`"short read, wanted: .., got: .."` if fewer remain), then one sigil byte. -/
def take_block_data (len : Nat) (afterColon : List Nat) :
    Except Err (Option Block × List Nat) :=
  if (afterColon.take len).length = len then
    match afterColon.drop len with
    | [] => .error (.noTrailingSigil len)
    | s :: rest => .ok (some (Block.mk s (afterColon.take len)), rest)
  else .error (.shortRead len (afterColon.take len).length)

/-- Step of `take_block` after the digits are consumed: require a colon
(`ensure!(b':' == input.next() ...)`), erroring on end of stream or on any
other byte. -/
def take_block_after (len : Nat) (afterDigits : List Nat) :
    Except Err (Option Block × List Nat) :=
  match afterDigits with
  | [] => .error .eofColon
  | c :: afterColon =>
    if c = 58 then take_block_data len afterColon
    else .error .missingColon

/-- Step of `take_block` for a non-empty, non-newline stream: collect the
numeric characters as the declared length (`peeking_take_while` plus
`parse::<usize>`, the parse error carrying up to 50 bytes of following
input as context), then hand over to the colon step. -/
def take_block_core (input : List Nat) : Except Err (Option Block × List Nat) :=
  match parseUsize (input.takeWhile isNumByte) with
  | none =>
    .error (.ctx "reading length near" (.lengthParse ((input.dropWhile isNumByte).take 50)))
  | some len => take_block_after len (input.dropWhile isNumByte)

/-- Model of `take_block`: peeks the stream first and returns no block (and
leaves the stream untouched) on end of input or on a newline byte; otherwise
lexes one `length ":" payload sigil` frame.  The returned list is the
remaining stream. -/
def take_block (input : List Nat) : Except Err (Option Block × List Nat) :=
  match input with
  | [] => .ok (none, [])
  | b :: rest =>
    if b = 10 then .ok (none, b :: rest)
    else take_block_core (b :: rest)

/-- UTF-8 continuation byte test (0x80 to 0xBF). -/
def isCont (b : Nat) : Bool :=
  128 ≤ b && b ≤ 191

/-- Lower bound for the second byte of a multi-byte UTF-8 sequence, with the
tightened ranges Rust's `String::from_utf8` enforces for 0xE0 and 0xF0
(rejecting overlong encodings). -/
def utf8SecondLo (b1 : Nat) : Nat :=
  if b1 = 224 then 160 else if b1 = 240 then 144 else 128

/-- Upper bound for the second byte of a multi-byte UTF-8 sequence, tightened
for 0xED (no surrogates) and 0xF4 (no code points past 0x10FFFF). -/
def utf8SecondHi (b1 : Nat) : Nat :=
  if b1 = 237 then 159 else if b1 = 244 then 143 else 191

/-- Prepend a decoded character to the result of decoding the remaining
bytes, propagating an error unchanged. -/
def utf8Res (c : Char) (r : Except Nat (List Char)) : Except Nat (List Char) :=
  match r with
  | .ok cs => .ok (c :: cs)
  | .error j => .error j

/-- Two-byte UTF-8 sequence: check the continuation byte, else fail at the
index `i` of the leading byte. -/
def utf8Two (i b1 b2 : Nat) (r : Except Nat (List Char)) : Except Nat (List Char) :=
  if isCont b2 then utf8Res (Char.ofNat ((b1 - 192) * 64 + (b2 - 128))) r
  else .error i

/-- Three-byte UTF-8 sequence: check the (tightened) second byte and the
continuation byte, else fail at the index `i` of the leading byte. -/
def utf8Three (i b1 b2 b3 : Nat) (r : Except Nat (List Char)) : Except Nat (List Char) :=
  if utf8SecondLo b1 ≤ b2 && b2 ≤ utf8SecondHi b1 && isCont b3 then
    utf8Res (Char.ofNat ((b1 - 224) * 4096 + (b2 - 128) * 64 + (b3 - 128))) r
  else .error i

/-- Four-byte UTF-8 sequence: check the (tightened) second byte and the two
continuation bytes, else fail at the index `i` of the leading byte. -/
def utf8Four (i b1 b2 b3 b4 : Nat) (r : Except Nat (List Char)) : Except Nat (List Char) :=
  if utf8SecondLo b1 ≤ b2 && b2 ≤ utf8SecondHi b1 && isCont b3 && isCont b4 then
    utf8Res (Char.ofNat ((b1 - 240) * 262144 + (b2 - 128) * 4096 + (b3 - 128) * 64 + (b4 - 128))) r
  else .error i

/-- UTF-8 validation and decoding, exactly the byte-sequence acceptance of
Rust's `String::from_utf8`.  `i` is the index of the next byte; on the first
malformed or truncated sequence the error carries the index of its leading
byte, which is `FromUtf8Error::utf8_error().valid_up_to()`. -/
def utf8Go : Nat → List Nat → Except Nat (List Char)
  | _, [] => .ok []
  | i, b1 :: rest =>
    if b1 < 128 then utf8Res (Char.ofNat b1) (utf8Go (i + 1) rest)
    else if 194 ≤ b1 && b1 ≤ 223 then
      match rest with
      | b2 :: rest2 => utf8Two i b1 b2 (utf8Go (i + 2) rest2)
      | [] => .error i
    else if 224 ≤ b1 && b1 ≤ 239 then
      match rest with
      | [] => .error i
      | b2 :: rest2 =>
        match rest2 with
        | [] => .error i
        | b3 :: rest3 => utf8Three i b1 b2 b3 (utf8Go (i + 3) rest3)
    else if 240 ≤ b1 && b1 ≤ 244 then
      match rest with
      | [] => .error i
      | b2 :: rest2 =>
        match rest2 with
        | [] => .error i
        | b3 :: rest3 =>
          match rest3 with
          | [] => .error i
          | b4 :: rest4 => utf8Four i b1 b2 b3 b4 (utf8Go (i + 4) rest4)
    else .error i

/-- Model of `String::from_utf8`: the decoded string, or the index up to
which the bytes were valid. -/
def utf8DecodeE (bs : List Nat) : Except Nat String :=
  match utf8Go 0 bs with
  | .ok cs => .ok (String.mk cs)
  | .error i => .error i

/-- The standard base64 alphabet used by `base64::encode`. -/
def b64Alphabet : List Char :=
  "ABCDEFGHIJKLMNOPQRSTUVWXYZabcdefghijklmnopqrstuvwxyz0123456789+/".toList

/-- Character for a 6-bit group. -/
def b64Char (n : Nat) : Char :=
  b64Alphabet.getD n 'A'

/-- Index of a character in the base64 alphabet, `none` for padding or any
foreign character. -/
def b64Val (c : Char) : Option Nat :=
  b64Alphabet.findIdx? (fun x => x = c)

/-- Model of `base64::encode` (standard alphabet, `=` padding): three input
bytes become four characters; a trailing group of one or two bytes is padded
with `==` or `=`. -/
def base64EncodeL : List Nat → List Char
  | [] => []
  | [b1] => [b64Char (b1 / 4), b64Char (b1 % 4 * 16), '=', '=']
  | [b1, b2] => [b64Char (b1 / 4), b64Char (b1 % 4 * 16 + b2 / 16), b64Char (b2 % 16 * 4), '=']
  | b1 :: b2 :: b3 :: rest =>
    b64Char (b1 / 4) :: b64Char (b1 % 4 * 16 + b2 / 16) ::
      b64Char (b2 % 16 * 4 + b3 / 64) :: b64Char (b3 % 64) :: base64EncodeL rest

/-- Modelled from the spec: base64 decoding (the inverse direction the spec's
fallback-idempotence property speaks about; the repository itself only
encodes).  Accepts four-character groups, the last one optionally padded. -/
def base64DecodeL : List Char → Option (List Nat)
  | [] => some []
  | c1 :: c2 :: c3 :: c4 :: rest =>
    match b64Val c1, b64Val c2 with
    | some v1, some v2 =>
      if c3 = '=' then
        if c4 = '=' ∧ rest = [] then some [v1 * 4 + v2 / 16] else none
      else
        match b64Val c3 with
        | some v3 =>
          if c4 = '=' then
            if rest = [] then some [v1 * 4 + v2 / 16, v2 % 16 * 16 + v3 / 4] else none
          else
            match b64Val c4, base64DecodeL rest with
            | some v4, some tl =>
              some ((v1 * 4 + v2 / 16) :: (v2 % 16 * 16 + v3 / 4) :: (v3 % 4 * 64 + v4) :: tl)
            | _, _ => none
        | none => none
    | _, _ => none
  | _ => none

/-- String-level `base64::encode`. -/
def base64Encode (bs : List Nat) : String :=
  String.mk (base64EncodeL bs)

/-- String-level base64 decoding (modelled from the spec, see
`base64DecodeL`). -/
def base64Decode (s : String) : Option (List Nat) :=
  base64DecodeL s.data

/-- Start of the diagnostic window of `string_error`:
`valid_up_to().saturating_sub(20)` (natural subtraction saturates). -/
def windowStart (validUpTo : Nat) : Nat :=
  validUpTo - 20

/-- End of the diagnostic window of `string_error`:
`(start + 60).min(e.as_bytes().len())`. -/
def windowEnd (validUpTo : Nat) (len : Nat) : Nat :=
  min (windowStart validUpTo + 60) len

/-- Model of `string_error`: the error carries the byte window
`bytes[start..end]` around the first invalid position (the Rust code renders
it lossily into the message text). -/
def string_error (validUpTo : Nat) (bytes : List Nat) : Err :=
  .badString ((bytes.drop (windowStart validUpTo)).take
    (windowEnd validUpTo bytes.length - windowStart validUpTo))

/-- The `,` (plain string) branch: valid UTF-8 becomes a `String`; anything
else falls back, without failing, to the object
`json!(.. "base64": base64::encode(bytes) ..)`. -/
def decodeComma (data : List Nat) : Value :=
  match utf8DecodeE data with
  | .ok s => .str s
  | .error _ => .obj [("base64", .str (base64Encode data))]

/-- The `;` / `^` / `~` branches: require valid UTF-8, failing through
`string_error` wrapped with the `reading string type` context. -/
def decodeText (data : List Nat) : Except Err Value :=
  match utf8DecodeE data with
  | .ok s => .ok (.str s)
  | .error i => .error (.ctx "reading string type" (string_error i data))

/-- ASCII digit test on characters. -/
def isDigitChar (c : Char) : Bool :=
  48 ≤ c.toNat && c.toNat ≤ 57

/-- Integer part of a JSON number: a single `0`, or a nonzero digit followed
by digits.  Returns the unconsumed remainder. -/
def jsonInt : List Char → Option (List Char)
  | [] => none
  | '0' :: rest => some rest
  | c :: rest => if isDigitChar c then some (rest.dropWhile isDigitChar) else none

/-- Optional fraction part of a JSON number: `.` followed by one or more
digits. -/
def jsonFrac : List Char → Option (List Char)
  | '.' :: rest =>
    if (rest.takeWhile isDigitChar).isEmpty then none
    else some (rest.dropWhile isDigitChar)
  | cs => some cs

/-- Digits of an exponent, after an optional sign. -/
def jsonExpDigits (cs : List Char) : Option (List Char) :=
  if (cs.takeWhile isDigitChar).isEmpty then none
  else some (cs.dropWhile isDigitChar)

/-- Optional exponent part of a JSON number. -/
def jsonExp : List Char → Option (List Char)
  | 'e' :: '+' :: rest => jsonExpDigits rest
  | 'e' :: '-' :: rest => jsonExpDigits rest
  | 'e' :: rest => jsonExpDigits rest
  | 'E' :: '+' :: rest => jsonExpDigits rest
  | 'E' :: '-' :: rest => jsonExpDigits rest
  | 'E' :: rest => jsonExpDigits rest
  | cs => some cs

/-- JSON number grammar over a character list, after an optional leading
minus sign. -/
def jsonNumBody (cs : List Char) : Bool :=
  match jsonInt cs with
  | none => false
  | some r1 =>
    match jsonFrac r1 with
    | none => false
    | some r2 =>
      match jsonExp r2 with
      | none => false
      | some r3 => r3.isEmpty

/-- Model of `str::parse::<serde_json::Number>`: acceptance of the JSON
number grammar.  The numeric value itself is abstracted as the literal text
(see `Value.num`); the finiteness rejection of extreme float exponents is
not modelled, and no claim depends on it. -/
def isJsonNumber (s : String) : Bool :=
  match s.data with
  | '-' :: rest => jsonNumBody rest
  | cs => jsonNumBody cs

/-- The `#` (number) branch: require valid UTF-8 (context `reading number`),
then parse as a number. -/
def decodeNumber (data : List Nat) : Except Err Value :=
  match utf8DecodeE data with
  | .ok s => if isJsonNumber s then .ok (.num s) else .error (.badNumber s)
  | .error i => .error (.ctx "reading number" (.invalidUtf8 i))

/-- The `!` (boolean) branch: require valid UTF-8 (context `reading
boolean`), then exactly the literal `true` or `false`. -/
def decodeBool (data : List Nat) : Except Err Value :=
  match utf8DecodeE data with
  | .ok s =>
    if s = "false" then .ok (.bool false)
    else if s = "true" then .ok (.bool true)
    else .error (.invalidBoolean s)
  | .error i => .error (.ctx "reading boolean" (.invalidUtf8 i))

/-- Model of itertools' `tuples::<(_, _)>()`: consecutive pairs; a trailing
unpaired element is silently dropped. -/
def tuples2 : List Value → List (Value × Value)
  | a :: b :: rest => (a, b) :: tuples2 rest
  | _ => []

/-- Model of `Value::as_str`: the text of a string value, `none` for every
other variant. -/
def keyString : Value → Option String
  | .str s => some s
  | _ => none

/-- The key-checking map of the object branch: each pair's key must be a
string value (`key.as_str().ok_or_else(.. invalid non-string key ..)`),
collected fail-fast like `collect::<Result<_, _>>`. -/
def stringPairs : List (Value × Value) → Except Err (List (String × Value))
  | [] => .ok []
  | (k, v) :: rest =>
    match keyString k with
    | some s =>
      match stringPairs rest with
      | .ok ps => .ok ((s, v) :: ps)
      | .error e => .error e
    | none => .error (.nonStringKey k)

/-- Modelled from the spec: one insertion into the `serde_json::Map` the
object pairs are collected into.  The repository's `Cargo.toml` (which fixes
the map's ordering via the `preserve_order` feature choice) is not among the
sources; per the spec's "insertion order preserved", an existing key keeps
its position and gets the new value, and a new key is appended.  The
overwrite-on-duplicate behaviour itself is the `Map::insert` contract under
either feature choice. -/
def mapInsert : List (String × Value) → String → Value → List (String × Value)
  | [], k, v => [(k, v)]
  | p :: rest, k, v =>
    if p.fst = k then (k, v) :: rest else p :: mapInsert rest k v

/-- Collection of the checked pairs into the map, one `insert` per pair in
encounter order (`FromIterator for Map`). -/
def buildMap (ps : List (String × Value)) : List (String × Value) :=
  ps.foldl (fun m p => mapInsert m p.fst p.snd) []

/-- The `}` branch applied to the recursively decoded body: pair the values
with `tuples()`, require string keys, and collect into the map. -/
def mkObject (contents : List Value) : Except Err Value :=
  match stringPairs (tuples2 contents) with
  | .ok ps => .ok (.obj (buildMap ps))
  | .error e => .error e

/-- Dispatch for the non-container sigils `,` `;` `^` `~` `#` `!`, and the
`unimplemented` failure for any other sigil byte. -/
def decodeLeaf (b : Block) : Except Err Value :=
  if b.sigil = 44 then .ok (decodeComma b.data)
  else if b.sigil = 59 || b.sigil = 94 || b.sigil = 126 then decodeText b.data
  else if b.sigil = 35 then decodeNumber b.data
  else if b.sigil = 33 then decodeBool b.data
  else .error (.unimplemented b.sigil b.data)

/-- Interpretation of one block given the result `rec` of recursively
decoding its payload (only consulted for the container sigils `]` and `}`,
whose recursive errors get the `destructuring array` / `destructuring
object` contexts). -/
def decodeValue (b : Block) (rec : Except Err (List Value)) : Except Err Value :=
  if b.sigil = 93 then
    match rec with
    | .error e => .error (.ctx "destructuring array" e)
    | .ok contents => .ok (.arr contents)
  else if b.sigil = 125 then
    match rec with
    | .error e => .error (.ctx "destructuring object" e)
    | .ok contents => mkObject contents
  else decodeLeaf b

/-- Fuelled model of `deconstruct`: the loop pulling blocks with
`take_block` (each lexer error wrapped with the `reading block` context) and
interpreting them in order; the values passed to the callback are returned
as a list, in callback order.  The fuel only bounds the recursion depth of
the embedding; `deconstructF_no_fuel` proves it is never exhausted from
`deconstruct`'s initial bound. -/
def deconstructF : Nat → List Nat → Except Err (List Value)
  | 0, _ => .error .fuelExhausted
  | fuel + 1, input =>
    match take_block input with
    | .error e => .error (.ctx "reading block" e)
    | .ok (none, _) => .ok []
    | .ok (some b, rest) =>
      match decodeValue b (deconstructF fuel b.data) with
      | .error e => .error e
      | .ok v =>
        match deconstructF fuel rest with
        | .error e => .error e
        | .ok vs => .ok (v :: vs)

/-- Model of `deconstruct` on a byte buffer: every consumed block strictly
shrinks the remaining input, so `input.length + 1` units of fuel always
suffice. -/
def deconstruct (input : List Nat) : Except Err (List Value) :=
  deconstructF (input.length + 1) input

/-- Bytes of an ASCII string, for writing concrete wire inputs. -/
def asciiBytes (s : String) : List Nat :=
  s.data.map Char.toNat

/-- An error mentions no fuel exhaustion anywhere in its context chain. -/
def Err.fuelFree : Err → Bool
  | .fuelExhausted => false
  | .ctx _ e => e.fuelFree
  | _ => true

theorem isNumByte_ten : isNumByte 10 = false := rfl

theorem isNumByte_colon : isNumByte 58 = false := rfl

theorem takeWhile_append_of_all {p : Nat → Bool} :
    ∀ (ds : List Nat) (c : Nat) (r : List Nat),
    (∀ x ∈ ds, p x = true) → p c = false →
    (ds ++ c :: r).takeWhile p = ds ∧ (ds ++ c :: r).dropWhile p = c :: r := by
  intro ds
  induction ds with
  | nil =>
    intro c r _ hc
    simp [List.takeWhile, List.dropWhile, hc]
  | cons d ds ih =>
    intro c r hall hc
    have hd : p d = true := hall d (by simp)
    have := ih c r (fun x hx => hall x (by simp [hx])) hc
    simp [List.takeWhile_cons, List.dropWhile_cons, hd, this.1, this.2]

theorem take_block_core_not_none {input : List Nat} {r : List Nat} :
    take_block_core input ≠ .ok (none, r) := by
  intro h
  rw [take_block_core] at h
  split at h
  · simp at h
  · rw [take_block_after.eq_def] at h
    split at h
    · simp at h
    · split at h
      · rw [take_block_data] at h
        split at h
        · split at h <;> simp at h
        · simp at h
      · simp at h

theorem take_block_none_inv {input r : List Nat}
    (h : take_block input = .ok (none, r)) :
    r = input ∧ (input = [] ∨ ∃ tl, input = 10 :: tl) := by
  match input with
  | [] =>
    rw [take_block] at h
    simp at h
    simp [h]
  | x :: tl =>
    rw [take_block] at h
    split at h
    · next hx =>
      simp at h
      subst hx
      exact ⟨h.symm, Or.inr ⟨tl, rfl⟩⟩
    · exact absurd h take_block_core_not_none

theorem take_block_shape {input : List Nat} {b : Block} {rest : List Nat}
    (h : take_block input = .ok (some b, rest)) :
    input.takeWhile isNumByte ≠ [] ∧
    parseUsize (input.takeWhile isNumByte) = some b.data.length ∧
    input = input.takeWhile isNumByte ++ 58 :: (b.data ++ b.sigil :: rest) := by
  match input with
  | [] => simp [take_block] at h
  | x :: tl =>
    rw [take_block] at h
    split at h
    · simp at h
    · rw [take_block_core] at h
      split at h
      · simp at h
      · next len hp =>
        rw [take_block_after.eq_def] at h
        split at h
        · next hdrop => simp at h
        · next c ac hdrop =>
          split at h
          · next hc =>
            rw [take_block_data] at h
            split at h
            · next hlen =>
              split at h
              · simp at h
              · next s r hdata =>
                simp only [Except.ok.injEq, Prod.mk.injEq, Option.some.injEq] at h
                obtain ⟨hb, hr⟩ := h
                subst hb
                subst hr
                refine ⟨?_, ?_, ?_⟩
                · intro hnil
                  rw [hnil] at hp
                  simp [parseUsize] at hp
                · simpa [hlen] using hp
                · conv_lhs => rw [← List.takeWhile_append_dropWhile (p := isNumByte) (l := x :: tl)]
                  rw [hdrop, hc]
                  simp only [List.cons_append, List.nil_append]
                  congr 1
                  congr 1
                  rw [← hdata]
                  simp [List.take_append_drop]
            · simp at h
          · simp at h

theorem parseUsize_ne_nil {ds : List Nat} {n : Nat} (h : parseUsize ds = some n) :
    ds ≠ [] := by
  intro hnil
  rw [hnil] at h
  simp [parseUsize] at h

theorem take_block_length {input : List Nat} {b : Block} {rest : List Nat}
    (h : take_block input = .ok (some b, rest)) :
    1 ≤ (input.takeWhile isNumByte).length ∧
    input.length =
      (input.takeWhile isNumByte).length + 1 + b.data.length + 1 + rest.length := by
  obtain ⟨hne, _, hshape⟩ := take_block_shape h
  constructor
  · cases hds : input.takeWhile isNumByte with
    | nil => exact absurd hds hne
    | cons d ds => simp
  · conv_lhs => rw [hshape]
    simp [List.length_append]
    omega

theorem take_block_data_lt {input : List Nat} {b : Block} {rest : List Nat}
    (h : take_block input = .ok (some b, rest)) :
    b.data.length + 3 ≤ input.length ∧ rest.length + 3 ≤ input.length := by
  obtain ⟨h1, h2⟩ := take_block_length h
  omega

theorem take_block_append {input : List Nat} {b : Block} {rest : List Nat} (t : List Nat)
    (h : take_block input = .ok (some b, rest)) :
    take_block (input ++ t) = .ok (some b, rest ++ t) := by
  obtain ⟨hne, hparse, hshape⟩ := take_block_shape h
  have hall : ∀ x ∈ input.takeWhile isNumByte, isNumByte x = true :=
    fun x hx => List.mem_takeWhile_imp hx
  cases hds : input.takeWhile isNumByte with
  | nil => exact absurd hds hne
  | cons d ds =>
    rw [hds] at hparse hshape hall
    have hd : isNumByte d = true := hall d (by simp)
    have hd10 : ¬ d = 10 := by
      intro h10
      rw [h10] at hd
      simp [isNumByte] at hd
    have hshape2 : input ++ t =
        (d :: ds) ++ 58 :: (b.data ++ b.sigil :: (rest ++ t)) := by
      rw [hshape]
      simp
    rw [hshape2]
    have htw := takeWhile_append_of_all (p := isNumByte) (d :: ds) 58
      (b.data ++ b.sigil :: (rest ++ t)) hall isNumByte_colon
    simp only [List.cons_append]
    rw [take_block]
    rw [if_neg hd10]
    rw [take_block_core]
    rw [show ((d :: ds) ++ 58 :: (b.data ++ b.sigil :: (rest ++ t))) =
      (d :: (ds ++ 58 :: (b.data ++ b.sigil :: (rest ++ t))))  by simp] at htw
    rw [htw.1, htw.2, hparse]
    dsimp only
    rw [take_block_after.eq_def]
    simp only [if_pos rfl]
    rw [take_block_data]
    have htake : ((b.data ++ b.sigil :: (rest ++ t)).take b.data.length) = b.data :=
      List.take_left b.data _
    have hdrop : ((b.data ++ b.sigil :: (rest ++ t)).drop b.data.length) =
        b.sigil :: (rest ++ t) :=
      List.drop_left b.data _
    rw [htake, hdrop]
    simp

theorem take_block_err_fuelFree {input : List Nat} {e : Err}
    (h : take_block input = .error e) : e.fuelFree = true := by
  match input with
  | [] => simp [take_block] at h
  | x :: tl =>
    rw [take_block] at h
    split at h
    · simp at h
    · rw [take_block_core] at h
      split at h
      · simp only [Except.error.injEq] at h
        subst h
        rfl
      · rw [take_block_after.eq_def] at h
        split at h
        · simp only [Except.error.injEq] at h
          subst h
          rfl
        · split at h
          · rw [take_block_data] at h
            split at h
            · split at h
              · simp only [Except.error.injEq] at h
                subst h
                rfl
              · simp at h
            · simp only [Except.error.injEq] at h
              subst h
              rfl
          · simp only [Except.error.injEq] at h
            subst h
            rfl

theorem stringPairs_err_fuelFree : ∀ {l : List (Value × Value)} {e : Err},
    stringPairs l = .error e → e.fuelFree = true := by
  intro l
  induction l with
  | nil =>
    intro e h
    simp [stringPairs] at h
  | cons p rest ih =>
    intro e h
    obtain ⟨k, v⟩ := p
    rw [stringPairs] at h
    cases hk : keyString k with
    | none =>
      rw [hk] at h
      simp only [Except.error.injEq] at h
      subst h
      rfl
    | some s =>
      rw [hk] at h
      cases hsp : stringPairs rest with
      | ok ps =>
        rw [hsp] at h
        simp at h
      | error e' =>
        rw [hsp] at h
        simp only [Except.error.injEq] at h
        subst h
        exact ih hsp

theorem mkObject_err_fuelFree {contents : List Value} {e : Err}
    (h : mkObject contents = .error e) : e.fuelFree = true := by
  rw [mkObject] at h
  split at h
  · simp at h
  · next e' he' =>
    simp only [Except.error.injEq] at h
    subst h
    exact stringPairs_err_fuelFree he'

theorem decodeLeaf_err_fuelFree {b : Block} {e : Err}
    (h : decodeLeaf b = .error e) : e.fuelFree = true := by
  rw [decodeLeaf] at h
  split at h
  · simp at h
  · split at h
    · rw [decodeText] at h
      split at h
      · simp at h
      · simp only [Except.error.injEq] at h
        subst h
        simp [string_error, Err.fuelFree]
    · split at h
      · rw [decodeNumber] at h
        split at h
        · split at h
          · simp at h
          · simp only [Except.error.injEq] at h
            subst h
            rfl
        · simp only [Except.error.injEq] at h
          subst h
          rfl
      · split at h
        · rw [decodeBool] at h
          split at h
          · split at h
            · simp at h
            · split at h
              · simp at h
              · simp only [Except.error.injEq] at h
                subst h
                rfl
          · simp only [Except.error.injEq] at h
            subst h
            rfl
        · simp only [Except.error.injEq] at h
          subst h
          rfl

theorem decodeValue_err_fuelFree {b : Block} {rec : Except Err (List Value)} {e : Err}
    (h : decodeValue b rec = .error e)
    (hrec : ∀ e', rec = .error e' → e'.fuelFree = true) : e.fuelFree = true := by
  rw [decodeValue.eq_def] at h
  cases rec with
  | error e2 =>
    have h2 : e2.fuelFree = true := hrec e2 rfl
    split at h
    · simp only [Except.error.injEq] at h
      subst h
      simpa [Err.fuelFree] using h2
    · split at h
      · simp only [Except.error.injEq] at h
        subst h
        simpa [Err.fuelFree] using h2
      · exact decodeLeaf_err_fuelFree h
  | ok contents =>
    split at h
    · simp at h
    · split at h
      · exact mkObject_err_fuelFree h
      · exact decodeLeaf_err_fuelFree h

theorem deconstructF_no_fuel : ∀ (fuel : Nat) (input : List Nat) (e : Err),
    input.length < fuel → deconstructF fuel input = .error e → e.fuelFree = true := by
  intro fuel
  induction fuel with
  | zero =>
    intro input e h
    omega
  | succ f ih =>
    intro input e hlt h
    rw [deconstructF] at h
    split at h
    · next e' he' =>
      simp only [Except.error.injEq] at h
      subst h
      simpa [Err.fuelFree] using take_block_err_fuelFree he'
    · simp at h
    · next b rest htb =>
      have hlen := take_block_data_lt htb
      split at h
      · next e' he' =>
        simp only [Except.error.injEq] at h
        subst h
        exact decodeValue_err_fuelFree he' (fun e2 he2 => ih b.data e2 (by omega) he2)
      · split at h
        · next e' he' =>
          simp only [Except.error.injEq] at h
          subst h
          exact ih rest e' (by omega) he'
        · simp at h

theorem deconstructF_congr : ∀ (f g : Nat) (input : List Nat),
    input.length < f → input.length < g →
    deconstructF f input = deconstructF g input := by
  intro f
  induction f with
  | zero =>
    intro g input h
    omega
  | succ f ih =>
    intro g input hf hg
    match g with
    | 0 => omega
    | g + 1 =>
      rw [deconstructF, deconstructF]
      cases htb : take_block input with
      | error e => rfl
      | ok pair =>
        obtain ⟨ob, rest⟩ := pair
        cases ob with
        | none => rfl
        | some b =>
          have hlen := take_block_data_lt htb
          have hdata : deconstructF f b.data = deconstructF g b.data :=
            ih g b.data (by omega) (by omega)
          have hrest : deconstructF f rest = deconstructF g rest :=
            ih g rest (by omega) (by omega)
          dsimp only
          rw [hdata, hrest]

theorem deconstructF_extend : ∀ (f g : Nat) (s t : List Nat) (vs : List Value),
    s.length < f → (s ++ 10 :: t).length < g →
    deconstructF f s = .ok vs → deconstructF g (s ++ 10 :: t) = .ok vs := by
  intro f
  induction f with
  | zero =>
    intro g s t vs h
    omega
  | succ f ih =>
    intro g s t vs hf hg hok
    match g with
    | 0 => omega
    | g + 1 =>
      rw [deconstructF] at hok
      rw [deconstructF]
      cases htb : take_block s with
      | error e =>
        rw [htb] at hok
        simp at hok
      | ok pair =>
        obtain ⟨ob, rest⟩ := pair
        rw [htb] at hok
        cases ob with
        | none =>
          simp only [Except.ok.injEq] at hok
          obtain ⟨_, hcases⟩ := take_block_none_inv htb
          rcases hcases with hnil | ⟨tl, h10⟩
          · subst hnil
            simp only [List.nil_append]
            rw [take_block]
            simp [hok]
          · rw [h10]
            have hcons : ((10 : Nat) :: tl) ++ 10 :: t = 10 :: (tl ++ 10 :: t) := by simp
            rw [hcons, take_block]
            simp [hok]
        | some b =>
          have happ := take_block_append (10 :: t) htb
          rw [happ]
          dsimp only
          dsimp only at hok
          have hlen := take_block_data_lt htb
          cases hdv : decodeValue b (deconstructF f b.data) with
          | error e =>
            rw [hdv] at hok
            simp at hok
          | ok v =>
            rw [hdv] at hok
            cases hrest : deconstructF f rest with
            | error e =>
              rw [hrest] at hok
              simp at hok
            | ok vs' =>
              rw [hrest] at hok
              simp only [Except.ok.injEq] at hok
              have hslen : s.length + 1 + t.length < g + 1 := by
                simp only [List.length_append, List.length_cons] at hg
                omega
              have hdveq : decodeValue b (deconstructF g b.data) = .ok v := by
                rw [← hdv]
                congr 1
                exact (deconstructF_congr f g b.data (by omega) (by omega)).symm
              have hresteq : deconstructF g (rest ++ 10 :: t) = .ok vs' := by
                refine ih g rest t vs' (by omega) ?_ hrest
                simp only [List.length_append, List.length_cons]
                omega
              rw [hdveq]
              dsimp only
              rw [hresteq]
              simp [hok]

theorem utf8Res_err {c : Char} {r : Except Nat (List Char)} {j : Nat}
    (h : utf8Res c r = .error j) : r = .error j := by
  cases r with
  | ok cs => simp [utf8Res] at h
  | error j2 =>
    simp [utf8Res] at h
    simp [h]

theorem utf8Two_err {i b1 b2 j : Nat} {r : Except Nat (List Char)}
    (h : utf8Two i b1 b2 r = .error j) : j = i ∨ r = .error j := by
  rw [utf8Two] at h
  split at h
  · exact Or.inr (utf8Res_err h)
  · simp only [Except.error.injEq] at h
    exact Or.inl h.symm

theorem utf8Three_err {i b1 b2 b3 j : Nat} {r : Except Nat (List Char)}
    (h : utf8Three i b1 b2 b3 r = .error j) : j = i ∨ r = .error j := by
  rw [utf8Three] at h
  split at h
  · exact Or.inr (utf8Res_err h)
  · simp only [Except.error.injEq] at h
    exact Or.inl h.symm

theorem utf8Four_err {i b1 b2 b3 b4 j : Nat} {r : Except Nat (List Char)}
    (h : utf8Four i b1 b2 b3 b4 r = .error j) : j = i ∨ r = .error j := by
  rw [utf8Four] at h
  split at h
  · exact Or.inr (utf8Res_err h)
  · simp only [Except.error.injEq] at h
    exact Or.inl h.symm

theorem utf8Go_err_le :
    ∀ (n : Nat) (bs : List Nat), bs.length ≤ n →
    ∀ (i j : Nat), utf8Go i bs = .error j → j ≤ i + bs.length := by
  intro n
  induction n with
  | zero =>
    intro bs hb i j h
    match bs with
    | [] =>
      have heq : utf8Go i ([] : List Nat) = .ok [] := rfl
      rw [heq] at h
      exact Except.noConfusion h
    | b :: tl =>
      simp only [List.length_cons] at hb
      omega
  | succ n ih =>
    intro bs hb i j h
    match bs with
    | [] =>
      have heq : utf8Go i ([] : List Nat) = .ok [] := rfl
      rw [heq] at h
      exact Except.noConfusion h
    | b1 :: rest =>
      simp only [List.length_cons] at hb
      rw [utf8Go.eq_def] at h
      dsimp only at h
      simp only [List.length_cons]
      split at h
      · have hr := utf8Res_err h
        have := ih rest (by omega) (i + 1) j hr
        omega
      · split at h
        · match rest with
          | [] =>
            simp only [Except.error.injEq] at h
            omega
          | b2 :: rest2 =>
            dsimp only at h
            simp only [List.length_cons] at hb ⊢
            rcases utf8Two_err h with hj | hr
            · omega
            · have := ih rest2 (by omega) (i + 2) j hr
              omega
        · split at h
          · match rest with
            | [] =>
              simp only [Except.error.injEq] at h
              omega
            | [b2] =>
              dsimp only at h
              simp only [Except.error.injEq] at h
              omega
            | b2 :: b3 :: rest3 =>
              dsimp only at h
              simp only [List.length_cons] at hb ⊢
              rcases utf8Three_err h with hj | hr
              · omega
              · have := ih rest3 (by omega) (i + 3) j hr
                omega
          · split at h
            · match rest with
              | [] =>
                simp only [Except.error.injEq] at h
                omega
              | [b2] =>
                dsimp only at h
                simp only [Except.error.injEq] at h
                omega
              | [b2, b3] =>
                dsimp only at h
                simp only [Except.error.injEq] at h
                omega
              | b2 :: b3 :: b4 :: rest4 =>
                dsimp only at h
                simp only [List.length_cons] at hb ⊢
                rcases utf8Four_err h with hj | hr
                · omega
                · have := ih rest4 (by omega) (i + 4) j hr
                  omega
            · simp only [Except.error.injEq] at h
              omega

theorem utf8DecodeE_err_le {bs : List Nat} {i : Nat}
    (h : utf8DecodeE bs = .error i) : i ≤ bs.length := by
  rw [utf8DecodeE] at h
  cases hg : utf8Go 0 bs with
  | ok cs =>
    rw [hg] at h
    simp at h
  | error j =>
    rw [hg] at h
    simp only [Except.error.injEq] at h
    subst h
    simpa using utf8Go_err_le bs.length bs (le_refl _) 0 j hg

theorem b64Val_b64Char : ∀ n : Nat, n < 64 → b64Val (b64Char n) = some n := by decide

theorem b64Char_ne_pad : ∀ n : Nat, n < 64 → ¬ b64Char n = '=' := by decide

theorem base64_roundtrip_len :
    ∀ (n : Nat) (bs : List Nat), bs.length ≤ n → (∀ b ∈ bs, b < 256) →
    base64DecodeL (base64EncodeL bs) = some bs := by
  intro n
  induction n with
  | zero =>
    intro bs hb _
    match bs with
    | [] => rfl
    | b :: tl =>
      simp only [List.length_cons] at hb
      omega
  | succ n ih =>
    intro bs hb hlt
    match bs with
    | [] => rfl
    | [b1] =>
      have hb1 : b1 < 256 := hlt b1 (by simp)
      rw [base64EncodeL, base64DecodeL]
      rw [b64Val_b64Char _ (by omega), b64Val_b64Char _ (by omega)]
      dsimp only
      rw [if_pos rfl, if_pos ⟨rfl, rfl⟩]
      simp only [Option.some.injEq, List.cons.injEq, and_true]
      omega
    | [b1, b2] =>
      have hb1 : b1 < 256 := hlt b1 (by simp)
      have hb2 : b2 < 256 := hlt b2 (by simp)
      rw [base64EncodeL, base64DecodeL]
      rw [b64Val_b64Char _ (by omega), b64Val_b64Char _ (by omega)]
      dsimp only
      rw [if_neg (b64Char_ne_pad _ (by omega))]
      rw [b64Val_b64Char _ (by omega)]
      dsimp only
      rw [if_pos rfl, if_pos rfl]
      simp only [Option.some.injEq, List.cons.injEq, and_true]
      constructor
      · omega
      · omega
    | b1 :: b2 :: b3 :: rest =>
      have hb1 : b1 < 256 := hlt b1 (by simp)
      have hb2 : b2 < 256 := hlt b2 (by simp)
      have hb3 : b3 < 256 := hlt b3 (by simp)
      have hrest : base64DecodeL (base64EncodeL rest) = some rest := by
        refine ih rest ?_ (fun b hbmem => hlt b (by simp [hbmem]))
        simp only [List.length_cons] at hb
        omega
      rw [base64EncodeL, base64DecodeL]
      rw [b64Val_b64Char _ (by omega), b64Val_b64Char _ (by omega)]
      dsimp only
      rw [if_neg (b64Char_ne_pad _ (by omega))]
      rw [b64Val_b64Char _ (by omega)]
      dsimp only
      rw [if_neg (b64Char_ne_pad _ (by omega))]
      rw [b64Val_b64Char _ (by omega), hrest]
      dsimp only
      simp only [Option.some.injEq, List.cons.injEq]
      exact ⟨by omega, by omega, by omega, trivial⟩

theorem base64Encode_decode {bs : List Nat} (h : ∀ b ∈ bs, b < 256) :
    base64Decode (base64Encode bs) = some bs := by
  rw [base64Decode, base64Encode]
  exact base64_roundtrip_len bs.length bs (le_refl _) h

theorem lookup_mapInsert (m : List (String × Value)) (k k' : String) (v : Value) :
    List.lookup k (mapInsert m k' v) =
      if k = k' then some v else List.lookup k m := by
  induction m with
  | nil =>
    by_cases hk : k = k'
    · subst hk
      simp [mapInsert, List.lookup]
    · have hba : (k == k') = false := beq_eq_false_iff_ne.mpr hk
      simp [mapInsert, List.lookup, hk, hba]
  | cons p rest ih =>
    obtain ⟨a, w⟩ := p
    by_cases hp : a = k'
    · subst hp
      rw [mapInsert]
      simp only [if_pos rfl]
      by_cases hk : k = a
      · subst hk
        simp [List.lookup]
      · have hba : (k == a) = false := beq_eq_false_iff_ne.mpr hk
        simp [List.lookup, hk, hba]
    · rw [mapInsert]
      simp only [if_neg hp]
      by_cases hk : k = a
      · subst hk
        have hk' : ¬ k = k' := fun h => hp h
        simp [List.lookup, hk']
      · have hba : (k == a) = false := beq_eq_false_iff_ne.mpr hk
        simp [List.lookup, hk, hba, ih]

theorem lookup_append (k : String) :
    ∀ (l1 l2 : List (String × Value)),
    List.lookup k (l1 ++ l2) =
      match List.lookup k l1 with
      | some v => some v
      | none => List.lookup k l2 := by
  intro l1
  induction l1 with
  | nil =>
    intro l2
    simp [List.lookup]
  | cons p rest ih =>
    intro l2
    obtain ⟨a, w⟩ := p
    by_cases hk : k = a
    · subst hk
      simp [List.lookup]
    · have hba : (k == a) = false := beq_eq_false_iff_ne.mpr hk
      simp [List.lookup, hba, ih]

theorem lookup_foldl_mapInsert (k : String) :
    ∀ (ps acc : List (String × Value)),
    List.lookup k (List.foldl (fun m p => mapInsert m p.fst p.snd) acc ps) =
      match List.lookup k ps.reverse with
      | some v => some v
      | none => List.lookup k acc := by
  intro ps
  induction ps with
  | nil =>
    intro acc
    simp [List.lookup]
  | cons p rest ih =>
    intro acc
    obtain ⟨a, w⟩ := p
    rw [List.foldl_cons, ih]
    simp only [List.reverse_cons]
    rw [lookup_append]
    cases List.lookup k rest.reverse with
    | some v => rfl
    | none =>
      rw [lookup_mapInsert]
      by_cases hk : k = a
      · subst hk
        simp [List.lookup]
      · have hba : (k == a) = false := beq_eq_false_iff_ne.mpr hk
        simp [List.lookup, hk, hba]

theorem keys_mapInsert (m : List (String × Value)) (k : String) (v : Value) :
    (mapInsert m k v).map Prod.fst =
      if k ∈ m.map Prod.fst then m.map Prod.fst else m.map Prod.fst ++ [k] := by
  induction m with
  | nil => simp [mapInsert]
  | cons p rest ih =>
    obtain ⟨a, w⟩ := p
    by_cases hp : a = k
    · subst hp
      rw [mapInsert]
      simp
    · rw [mapInsert]
      simp only [if_neg hp, List.map_cons, ih]
      by_cases hmem : k ∈ rest.map Prod.fst
      · simp [hmem]
      · simp [hmem, Ne.symm hp]

theorem nodup_keys_foldl_mapInsert :
    ∀ (ps acc : List (String × Value)), (acc.map Prod.fst).Nodup →
    ((List.foldl (fun m p => mapInsert m p.fst p.snd) acc ps).map Prod.fst).Nodup := by
  intro ps
  induction ps with
  | nil =>
    intro acc h
    simpa using h
  | cons p rest ih =>
    intro acc h
    rw [List.foldl_cons]
    refine ih _ ?_
    rw [keys_mapInsert]
    by_cases hmem : p.fst ∈ acc.map Prod.fst
    · simpa [hmem] using h
    · simp only [if_neg hmem]
      simp [List.nodup_append, h, hmem]

theorem mapInsert_not_mem (k : String) (v : Value) :
    ∀ (m : List (String × Value)), k ∉ m.map Prod.fst →
    mapInsert m k v = m ++ [(k, v)] := by
  intro m
  induction m with
  | nil => intro _; rfl
  | cons p rest ih =>
    intro h
    simp only [List.map_cons, List.mem_cons] at h
    push_neg at h
    rw [mapInsert]
    rw [if_neg (fun he => h.1 he.symm)]
    rw [ih h.2]
    simp

theorem foldl_mapInsert_nodup :
    ∀ (ps acc : List (String × Value)),
    (∀ k ∈ ps.map Prod.fst, k ∉ acc.map Prod.fst) → (ps.map Prod.fst).Nodup →
    List.foldl (fun m p => mapInsert m p.fst p.snd) acc ps = acc ++ ps := by
  intro ps
  induction ps with
  | nil =>
    intro acc _ _
    simp
  | cons p rest ih =>
    intro acc hdisj hnd
    obtain ⟨a, w⟩ := p
    rw [List.foldl_cons]
    have ha : a ∉ acc.map Prod.fst := hdisj a (by simp)
    rw [mapInsert_not_mem a w acc ha]
    rw [ih (acc ++ [(a, w)]) ?_ ?_]
    · simp
    · intro k hk
      simp only [List.map_append, List.mem_append] at *
      push_neg
      constructor
      · exact hdisj k (by simp [hk])
      · simp only [List.map_cons, List.nodup_cons] at hnd
        intro hmem
        simp at hmem
        exact hnd.1 (by simpa [hmem] using hk)
    · simp only [List.map_cons, List.nodup_cons] at hnd
      exact hnd.2

theorem tuples2_odd_dropLast :
    ∀ (n : Nat) (vs : List Value), vs.length ≤ n → vs.length % 2 = 1 →
    tuples2 vs = tuples2 vs.dropLast := by
  intro n
  induction n with
  | zero =>
    intro vs hn hodd
    match vs with
    | [] => simp at hodd
    | v :: tl =>
      simp only [List.length_cons] at hn
      omega
  | succ n ih =>
    intro vs hn hodd
    match vs with
    | [] => simp at hodd
    | [a] => rfl
    | a :: b :: rest =>
      have hrest : rest.length % 2 = 1 := by
        simp only [List.length_cons] at hodd
        omega
      have hne : rest ≠ [] := by
        intro hh
        rw [hh] at hrest
        simp at hrest
      match rest, hne with
      | c :: r, _ =>
        have hdl : (a :: b :: c :: r).dropLast = a :: b :: (c :: r).dropLast := rfl
        rw [hdl, tuples2, tuples2]
        simp only [List.length_cons] at hn
        rw [ih (c :: r) (by simp; omega) hrest]

theorem mkObject_odd_dropLast {vs : List Value} (h : vs.length % 2 = 1) :
    mkObject vs = mkObject vs.dropLast := by
  rw [mkObject, mkObject, tuples2_odd_dropLast vs.length vs (le_refl _) h]

theorem take_block_short {input : List Nat} {len : Nat}
    (hp : parseUsize (input.takeWhile isNumByte) = some len)
    {ac : List Nat} (hd : input.dropWhile isNumByte = 58 :: ac)
    (hshort : ac.length < len) :
    take_block input = .error (.shortRead len ac.length) := by
  have hne := parseUsize_ne_nil hp
  cases input with
  | nil => simp at hne
  | cons x tl =>
    have hx : isNumByte x = true := by
      by_cases hpx : isNumByte x
      · exact hpx
      · exact absurd (by simp [List.takeWhile_cons, hpx] : (x :: tl).takeWhile isNumByte = [])
          hne
    have hx10 : ¬ x = 10 := by
      intro h10
      rw [h10] at hx
      simp [isNumByte] at hx
    rw [take_block, if_neg hx10, take_block_core, hp]
    dsimp only
    rw [hd, take_block_after.eq_def]
    simp only [if_pos rfl]
    rw [take_block_data]
    have hlen : (ac.take len).length = ac.length := by
      rw [List.length_take]
      omega
    rw [if_neg (by omega : ¬ (ac.take len).length = len)]
    rw [hlen]
    simp

/-- C1: decoding the complete canonical input
`75:7:headers;61:33:13:Cache-Control,12:no-transform,]20:6:Pragma,8:no-cache,]]\x7d`
succeeds and yields exactly one top-level value: an object with the single
key `headers` whose value is an array of the two arrays
`[Cache-Control, no-transform]` and `[Pragma, no-cache]`. -/
theorem claim1_canonical_roundtrip :
    deconstruct (asciiBytes
        "75:7:headers;61:33:13:Cache-Control,12:no-transform,]20:6:Pragma,8:no-cache,]]\x7d") =
      .ok [.obj [("headers",
        .arr [.arr [.str "Cache-Control", .str "no-transform"],
              .arr [.str "Pragma", .str "no-cache"]])]] := rfl

/-- C2 counterexample: the claim says a `\x7d`-sigiled block whose payload
decodes to an odd number of values must fail with a structural error and
produce no object.  On this code the payload `3:abc,` decodes to exactly one
value (the string `abc`), yet decoding the object block `6:3:abc,\x7d`
succeeds and produces the empty object: itertools' `tuples()` silently drops
the unpaired trailing value and no parity check exists. -/
theorem claim2_counterexample :
    deconstruct (asciiBytes "3:abc,") = .ok [Value.str "abc"] ∧
    deconstruct (asciiBytes "6:3:abc,\x7d") = .ok [Value.obj []] :=
  ⟨rfl, rfl⟩

/-- C2 (amended): an odd-cardinality object body does not raise an error;
the final unpaired value is silently discarded, so building the object from
an odd body gives exactly the same result as building it from the body with
its last element removed. -/
theorem claim2_amended_odd_drops_last (vs : List Value)
    (h : vs.length % 2 = 1) : mkObject vs = mkObject vs.dropLast :=
  mkObject_odd_dropLast h

/-- C2 amended witness at the concrete one-element body. -/
theorem claim2_amended_witness :
    ([Value.str "abc"] : List Value).length % 2 = 1 ∧
    mkObject [Value.str "abc"] = mkObject ([Value.str "abc"] : List Value).dropLast :=
  ⟨rfl, claim2_amended_odd_drops_last [Value.str "abc"] rfl⟩

/-- C3 counterexample: the claim says every encountered pair is represented
in the resulting object.  The object block `16:1:a,1:x,1:a,1:y,\x7d` contains
the two pairs `(a, x)` and `(a, y)`, but the decoded object holds a single
entry for `a` (with the later value): the pairs are collected into a
deduplicating `serde_json::Map`, not kept as a pair list. -/
theorem claim3_counterexample :
    deconstruct (asciiBytes "16:1:a,1:x,1:a,1:y,\x7d") =
      .ok [.obj [("a", .str "y")]] := rfl

/-- C3 (amended): the decoded pairs are inserted into the map in encounter
order, but duplicate keys collapse into a single entry; when the body's keys
are pairwise distinct, every pair is represented and the object lists the
pairs exactly in encounter order. -/
theorem claim3_amended_distinct_keys_in_order (contents : List Value)
    (ps : List (String × Value))
    (hps : stringPairs (tuples2 contents) = .ok ps)
    (hnd : (ps.map Prod.fst).Nodup) :
    mkObject contents = .ok (.obj ps) := by
  rw [mkObject, hps]
  dsimp only
  unfold buildMap
  rw [foldl_mapInsert_nodup ps [] (by simp) hnd]
  simp

/-- C3 amended witness at a concrete two-pair body with distinct keys. -/
theorem claim3_amended_witness :
    mkObject [Value.str "a", Value.str "1", Value.str "b", Value.str "2"] =
      .ok (.obj [("a", Value.str "1"), ("b", Value.str "2")]) :=
  claim3_amended_distinct_keys_in_order
    [Value.str "a", Value.str "1", Value.str "b", Value.str "2"]
    [("a", Value.str "1"), ("b", Value.str "2")] rfl (by simp)

/-- C4: a `,`-sigiled block never errors: a valid-UTF-8 payload becomes the
corresponding string, and any other payload becomes the single-key object
`base64 : base64::encode(payload)` whose field base64-decodes back to
exactly the original payload bytes. -/
theorem claim4_comma_never_fails (data : List Nat) (hbytes : ∀ b ∈ data, b < 256) :
    (∀ s, utf8DecodeE data = .ok s → decodeComma data = .str s) ∧
    (∀ i, utf8DecodeE data = .error i →
      decodeComma data = .obj [("base64", .str (base64Encode data))] ∧
      base64Decode (base64Encode data) = some data) := by
  constructor
  · intro s hs
    rw [decodeComma, hs]
  · intro i hi
    refine ⟨?_, base64Encode_decode hbytes⟩
    rw [decodeComma, hi]

/-- C4 witness at the invalid-UTF-8 payload `0xFF`. -/
theorem claim4_witness :
    decodeComma [255] = .obj [("base64", .str (base64Encode [255]))] ∧
    base64Decode (base64Encode [255]) = some [255] :=
  (claim4_comma_never_fails [255] (by decide)).2 0 rfl

/-- C5: every block `take_block` returns carries exactly the declared number
of payload bytes (the declared length is the parse of the collected digit
characters), and whenever the declared length exceeds the bytes remaining
after the colon, `take_block` fails with the short-read error reporting the
requested and the actual byte counts. -/
theorem claim5_length_invariant :
    (∀ (input : List Nat) (b : Block) (rest : List Nat),
      take_block input = .ok (some b, rest) →
      parseUsize (input.takeWhile isNumByte) = some b.data.length) ∧
    (∀ (input : List Nat) (len : Nat) (ac : List Nat),
      parseUsize (input.takeWhile isNumByte) = some len →
      input.dropWhile isNumByte = 58 :: ac →
      ac.length < len →
      take_block input = .error (.shortRead len ac.length)) := by
  constructor
  · intro input b rest h
    exact (take_block_shape h).2.1
  · intro input len ac hp hd hshort
    exact take_block_short hp hd hshort

/-- C5 witness: the spec's own example, declared length 10 with only 5 bytes
remaining, fails with `short read, wanted: 10, got: 5`. -/
theorem claim5_witness :
    take_block (asciiBytes "10:abcde") = .error (.shortRead 10 5) :=
  claim5_length_invariant.2 (asciiBytes "10:abcde") 10 (asciiBytes "abcde")
    rfl rfl (by decide)

/-- C6: invoked on an exhausted stream or with a newline as the next
unconsumed byte, `take_block` returns no block rather than an error, and the
remaining stream it hands back is exactly the input stream, unchanged. -/
theorem claim6_no_block_no_consume (input : List Nat)
    (h : input = [] ∨ input.head? = some 10) :
    take_block input = .ok (none, input) := by
  rcases h with h | h
  · subst h
    rfl
  · cases input with
    | nil => simp at h
    | cons x tl =>
      simp only [List.head?_cons, Option.some.injEq] at h
      subst h
      rw [take_block, if_pos rfl]

/-- C6 witness at a stream starting with a newline. -/
theorem claim6_witness : take_block [10, 65] = .ok (none, [10, 65]) :=
  claim6_no_block_no_consume [10, 65] (Or.inr rfl)

/-- C7: `deconstruct` terminates on every finite input.  Every block
`take_block` returns accounts for the whole consumed frame: the input splits
into at least one length digit, the colon, the payload, the sigil byte and
the remainder, so both the payload handed to the recursive call and the
remaining stream are strictly shorter than the enclosing input; consequently
the recursion bound of the embedding is never exhausted (no decoding result
ever mentions fuel). -/
theorem claim7_termination :
    (∀ (input : List Nat) (b : Block) (rest : List Nat),
      take_block input = .ok (some b, rest) →
      1 ≤ (input.takeWhile isNumByte).length ∧
      input.length =
        (input.takeWhile isNumByte).length + 1 + b.data.length + 1 + rest.length ∧
      b.data.length < input.length ∧ rest.length < input.length) ∧
    (∀ (input : List Nat) (e : Err), deconstruct input = .error e → e.fuelFree = true) := by
  constructor
  · intro input b rest h
    have h1 := take_block_length h
    exact ⟨h1.1, h1.2, by omega, by omega⟩
  · intro input e h
    exact deconstructF_no_fuel (input.length + 1) input e (by omega) h

/-- C7 witness at the concrete block `3:abc,`. -/
theorem claim7_witness :
    1 ≤ ((asciiBytes "3:abc,").takeWhile isNumByte).length ∧
    (asciiBytes "3:abc,").length =
      ((asciiBytes "3:abc,").takeWhile isNumByte).length + 1 +
        (Block.mk 44 (asciiBytes "abc")).data.length + 1 + ([] : List Nat).length ∧
    (Block.mk 44 (asciiBytes "abc")).data.length < (asciiBytes "3:abc,").length ∧
    ([] : List Nat).length < (asciiBytes "3:abc,").length :=
  claim7_termination.1 (asciiBytes "3:abc,") (Block.mk 44 (asciiBytes "abc")) [] rfl

/-- C8: when the object body contains several pairs with the same string
key, the built object holds exactly one entry for that key (its key list has
no duplicates), bound to the value of the last occurrence in encounter order
(looking a key up in the built map equals looking it up in the reversed pair
list). -/
theorem claim8_duplicate_keys_last_wins (contents : List Value)
    (ps : List (String × Value))
    (hps : stringPairs (tuples2 contents) = .ok ps) :
    mkObject contents = .ok (.obj (buildMap ps)) ∧
    (∀ k, List.lookup k (buildMap ps) = List.lookup k ps.reverse) ∧
    ((buildMap ps).map Prod.fst).Nodup := by
  refine ⟨?_, ?_, ?_⟩
  · rw [mkObject, hps]
  · intro k
    unfold buildMap
    rw [lookup_foldl_mapInsert]
    cases List.lookup k ps.reverse with
    | some v => rfl
    | none => simp [List.lookup]
  · exact nodup_keys_foldl_mapInsert ps [] (by simp)

/-- C8 witness at a body binding `a` twice: the second value wins. -/
theorem claim8_witness :
    mkObject [Value.str "a", Value.str "1", Value.str "a", Value.str "2"] =
      .ok (.obj (buildMap [("a", Value.str "1"), ("a", Value.str "2")])) ∧
    List.lookup "a" (buildMap [("a", Value.str "1"), ("a", Value.str "2")]) =
      List.lookup "a" ([("a", Value.str "1"), ("a", Value.str "2")]).reverse ∧
    ((buildMap [("a", Value.str "1"), ("a", Value.str "2")]).map Prod.fst).Nodup := by
  have h := claim8_duplicate_keys_last_wins
    [Value.str "a", Value.str "1", Value.str "a", Value.str "2"]
    [("a", Value.str "1"), ("a", Value.str "2")] rfl
  exact ⟨h.1, h.2.1 "a", h.2.2⟩

/-- C9: whatever decodes successfully from a stream also decodes, with the
same values and with success, from that stream followed by a newline and
arbitrary junk: the newline and everything after it are never consumed,
never decoded, and never reported as an error by that call. -/
theorem claim9_newline_stops (pre junk : List Nat) (vs : List Value)
    (h : deconstruct pre = .ok vs) :
    deconstruct (pre ++ 10 :: junk) = .ok vs :=
  deconstructF_extend (pre.length + 1) ((pre ++ 10 :: junk).length + 1) pre junk vs
    (by omega) (by simp) h

/-- C9 witness: one block, then a newline, then bytes that are not even a
well-formed frame. -/
theorem claim9_witness :
    deconstruct (asciiBytes "3:abc," ++ 10 :: asciiBytes "junk") =
      .ok [Value.str "abc"] :=
  claim9_newline_stops (asciiBytes "3:abc,") (asciiBytes "junk") [Value.str "abc"] rfl

/-- C10: the diagnostic window `string_error` slices out of an invalid
payload is always within bounds: for every payload on which UTF-8 decoding
fails at `valid_up_to` index `i`, the window start `i - 20` (saturating) is
at most the window end `min (start + 60) length`, which is at most the
payload length; in particular `i` itself never exceeds the payload length.
(The embedding is total by construction, so `deconstruct` always returns a
value of `Except`; the slice bounds are the panic-freedom content.) -/
theorem claim10_string_error_window (data : List Nat) (i : Nat)
    (h : utf8DecodeE data = .error i) :
    windowStart i ≤ windowEnd i data.length ∧
    windowEnd i data.length ≤ data.length ∧ i ≤ data.length := by
  have hle := utf8DecodeE_err_le h
  refine ⟨?_, ?_, hle⟩
  · simp only [windowStart, windowEnd]
    omega
  · simp only [windowStart, windowEnd]
    omega

/-- C10 witness at the one-byte invalid payload `0xFF`. -/
theorem claim10_witness :
    windowStart 0 ≤ windowEnd 0 ([255] : List Nat).length ∧
    windowEnd 0 ([255] : List Nat).length ≤ ([255] : List Nat).length ∧
    0 ≤ ([255] : List Nat).length :=
  claim10_string_error_window [255] 0 rfl

end Mitm
